import Mathlib

/-!
Verification development for the contract-clause-comparator repository.

The definitions below are a shallow embedding of the deterministic scaffolding
of the comparison pipeline found in src/app/api/compare/route.ts and its
helpers: the text normalizer, the clause deduplicator, the clause-matcher
repair pass, the diff-based change classifier, the risk aggregator, and a
sequential model of the orchestration run's database writes.

JavaScript strings are modelled as Lean String/List Char (ASCII-faithful),
JavaScript numbers used for confidences/ratios as Rat, integer scores as Int,
JS Sets as lists queried by membership, and JS Map construction (last write
per key wins) as a left fold.  External calls (clause extraction, semantic
matching, per-clause risk analysis, summary/tag generation, and the word-diff
library) are inputs of the model, supplied by an oracle structure.
-/

namespace ContractComparator

/-! ## Text normalizer

From normalizeTextForComparison of src/lib/utils.ts (src/unnamed/part_005
lines 110-125): a chain of five passes -- replace CRLF then lone CR by a
newline, collapse runs of spaces/tabs to one space, collapse three or more
consecutive newlines to exactly two, trim every line, trim the whole
result.  Each pass is embedded as a structural scan over the character
list; ASCII whitespace models the JS regexes and String.prototype.trim. -/

/-- Horizontal whitespace: space or tab. -/
def isHWS (c : Char) : Bool := c = ' ' || c = '\t'

/-- Whitespace as removed by a whole-string trim (space, tab, CR, LF). -/
def isWS (c : Char) : Bool := isHWS c || c = '\n' || c = '\r'

/-- The line-ending passes replace(CRLF, LF) then replace(CR, LF) of
utils.ts lines 113-114, as one scan.  In the two global regex passes every
CR becomes one LF and an LF directly following an original CR disappears
(it was merged with that CR in the first pass); the flag records whether
the previous input character was a CR. -/
def convertEOLAux : Bool → List Char → List Char
  | _, [] => []
  | prevCR, c :: rest =>
    if c = '\r' then '\n' :: convertEOLAux true rest
    else if c = '\n' then (if prevCR then [] else ['\n']) ++ convertEOLAux false rest
    else c :: convertEOLAux false rest

def convertEOL (l : List Char) : List Char := convertEOLAux false l

/-- The pass collapsing every run of spaces and tabs to a single space
(utils.ts line 116).  The flag records whether the scan is inside a run
that has already emitted its space. -/
def collapseHWSAux : Bool → List Char → List Char
  | _, [] => []
  | inRun, c :: rest =>
    if isHWS c then (if inRun then [] else [' ']) ++ collapseHWSAux true rest
    else c :: collapseHWSAux false rest

def collapseHWS (l : List Char) : List Char := collapseHWSAux false l

/-- The pass collapsing three or more consecutive newlines to exactly two
(utils.ts line 118).  The counter is the number of newlines of the current
run already seen. -/
def collapseNLAux : Nat → List Char → List Char
  | _, [] => []
  | k, c :: rest =>
    if c = '\n' then (if k < 2 then ['\n'] else []) ++ collapseNLAux (k + 1) rest
    else c :: collapseNLAux 0 rest

def collapseNL (l : List Char) : List Char := collapseNLAux 0 l

/-- The per-line trimming pass split-map-trim-join of utils.ts lines
120-122, as one scan.  The scan buffers horizontal whitespace in `pending`;
the buffer is flushed before the next ordinary character and discarded
before a newline or the end of the input (= trailing trim of the line).
`atStart` is true at the start of a line, where whitespace is dropped
immediately (= leading trim). -/
def trimLinesAux : Bool → List Char → List Char → List Char
  | _, _, [] => []
  | atStart, pending, c :: rest =>
    if c = '\n' then '\n' :: trimLinesAux true [] rest
    else if isHWS c then
      if atStart then trimLinesAux true [] rest
      else trimLinesAux false (pending ++ [c]) rest
    else pending ++ c :: trimLinesAux false [] rest

def trimLines (l : List Char) : List Char := trimLinesAux true [] l

/-- Drop trailing whitespace: the right half of the final trim of
utils.ts line 124. -/
def trimRight : List Char → List Char
  | [] => []
  | c :: rest =>
    let r := trimRight rest
    if r = [] && isWS c then [] else c :: r

/-- Drop leading whitespace: the left half of the final trim of
utils.ts line 124. -/
def trimLeft (l : List Char) : List Char := l.dropWhile isWS

/-- normalizeTextForComparison on character lists: the five passes of
utils.ts lines 110-125 in source order. -/
def normalizeChars (l : List Char) : List Char :=
  trimRight (trimLeft (trimLines (collapseNL (collapseHWS (convertEOL l)))))

/-- normalizeTextForComparison of src/lib/utils.ts (src/unnamed/part_005
lines 110-125). -/
def normalizeTextForComparison (s : String) : String :=
  ⟨normalizeChars s.data⟩

/-! ## Risk aggregator

From calculateOverallRisk of src/lib/utils.ts (src/unnamed/part_005 lines
92-103): 0 for an empty list, otherwise Math.round of the weighted sum over
the total weight, with weight 2 for a score of at least 75, 1.5 for at
least 50, and 1 otherwise.  JS numbers are modelled as Int scores and Rat
weights; Math.round is Mathlib round (both take halves up). -/

/-- Weight of one per-clause risk score (utils.ts lines 96 and 100). -/
def riskWeight (s : Int) : Rat := if s ≥ 75 then 2 else if s ≥ 50 then 3 / 2 else 1

/-- calculateOverallRisk of utils.ts lines 92-103: the two reduce passes
(weighted sum, total weight) and the rounded quotient. -/
def calculateOverallRisk (clauseRisks : List Int) : Int :=
  if clauseRisks.length = 0 then 0
  else
    let weightedSum := clauseRisks.foldl
      (fun (sum : Rat) (risk : Int) => sum + (risk : Rat) * riskWeight risk) 0
    let totalWeight := clauseRisks.foldl
      (fun (sum : Rat) (risk : Int) => sum + riskWeight risk) 0
    round (weightedSum / totalWeight)

/-- The spec's reference definition of the aggregator, written directly from
the spec's words: overall = round of the sum of score times weight divided by
the sum of weights, 0 for the empty list. -/
def specAggregate (scores : List Int) : Int :=
  if scores = [] then 0
  else round ((scores.map fun (s : Int) => (s : Rat) * riskWeight s).sum /
              (scores.map riskWeight).sum)

/-! ## Diff classifier

From src/app/api/compare/route.ts lines 308-315 (and the identical fallback
copy at lines 414-421): the word-diff of the two normalized texts is a list
of segments, each carrying a value and the added/removed flags; the change
ratio is the character count of the added-or-removed segments over the
character count of all segments, with 0 when the total is 0, and the status
is minor_change when the ratio is below 0.20 and significant_change
otherwise.  The diff itself is produced by the external "diff" library. -/

structure DiffPart where
  value : String
  added : Bool
  removed : Bool
deriving DecidableEq

/-- Character count of all diff segments (route.ts line 311). -/
def totalChars (diff : List DiffPart) : Nat :=
  (diff.map fun p => p.value.length).sum

/-- Character count of the added-or-removed segments (route.ts lines 310, 312). -/
def changedChars (diff : List DiffPart) : Nat :=
  ((diff.filter fun p => p.added || p.removed).map fun p => p.value.length).sum

/-- The change ratio of route.ts line 313: changed characters over total
characters, 0 when there are no characters at all. -/
def changeFrac (diff : List DiffPart) : Rat :=
  if totalChars diff > 0 then (changedChars diff : Rat) / (totalChars diff : Rat) else 0

/-- The status assignment of route.ts line 315. -/
def diffStatus (diff : List DiffPart) : String :=
  if changeFrac diff < 1 / 5 then "minor_change" else "significant_change"


/-! ## Clause deduplicator

From src/app/api/compare/route.ts lines 28-68 (extractAndSaveClauses): the
extracted candidates are sorted by descending confidence (JS stable sort,
missing confidence counts as 0), then scanned; a candidate is dropped when
(a) some previously kept fingerprint (lower-cased, normalized content cut to
500 characters) agrees with its own on the first 200 characters, or (b) its
clause type was already kept and the first 300 normalized characters agree
with those of the first kept clause of that type.  The survivors are sorted
by clause type.  JS substring(0, n) is modelled as a character-list take. -/

/-- JS s.substring(0, n). -/
def strTake (s : String) (n : Nat) : String := ⟨s.data.take n⟩

/-- JS s.toLowerCase() (ASCII-faithful). -/
def strLower (s : String) : String := ⟨s.data.map Char.toLower⟩

structure ExtractedClause where
  clause_type : String
  title : String
  content : String
  page_number : Option Nat
  confidence : Option Rat
deriving DecidableEq

/-- Stable insertion: x goes in front of the first element it may precede,
hence after every earlier-listed equal element. -/
def insertLE {α : Type} (le : α → α → Bool) (x : α) : List α → List α
  | [] => [x]
  | y :: ys => if le x y then x :: y :: ys else y :: insertLE le x ys

/-- Stable sort, modelling the (ES2019+) stable Array.prototype.sort. -/
def insertionSort {α : Type} (le : α → α → Bool) : List α → List α
  | [] => []
  | x :: xs => insertLE le x (insertionSort le xs)

/-- The comparator of route.ts line 33: descending (confidence || 0). -/
def confD (c : ExtractedClause) : Rat := c.confidence.getD 0

def byConfDesc (a b : ExtractedClause) : Bool := decide (confD b ≤ confD a)

/-- The comparator of route.ts line 68: ascending clause type. -/
def byClauseType (a b : ExtractedClause) : Bool := decide (a.clause_type ≤ b.clause_type)

/-- The content fingerprint of route.ts lines 38-39. -/
def fingerprint (content : String) : String :=
  strTake (normalizeTextForComparison (strLower content)) 500

/-- One iteration of the dedup loop of route.ts lines 37-66.  State:
(kept clauses, seen content hashes, seen clause types). -/
def dedupStep (st : List ExtractedClause × List String × List String)
    (clause : ExtractedClause) : List ExtractedClause × List String × List String :=
  let kept := st.1
  let seenHashes := st.2.1
  let seenTypes := st.2.2
  let contentHash := fingerprint clause.content
  let dupByHash := seenHashes.any fun seenHash => strTake seenHash 200 == strTake contentHash 200
  let isDuplicate :=
    if !dupByHash && seenTypes.contains clause.clause_type then
      match kept.find? (fun c => c.clause_type == clause.clause_type) with
      | some existing =>
        strTake contentHash 300 ==
          strTake (normalizeTextForComparison (strLower existing.content)) 300
      | none => dupByHash
    else dupByHash
  if isDuplicate then st
  else (kept ++ [clause], seenHashes ++ [contentHash], seenTypes ++ [clause.clause_type])

/-- The deduplication of route.ts lines 28-68: sort by descending
confidence, scan with dedupStep, sort the survivors by clause type. -/
def dedupClauses (cands : List ExtractedClause) : List ExtractedClause :=
  let sorted := insertionSort byConfDesc cands
  let kept := (sorted.foldl dedupStep ([], [], [])).1
  insertionSort byClauseType kept

/-! ## Clause matcher repair pass

From src/app/api/compare/route.ts lines 151-250: both clause lists are
sorted by (type, id); the external semantic matcher returns a result with
matches, unmatchedSource and unmatchedTarget; when it returns data, every
source clause absent from the matched-source-id set is given a fallback
target, first by identical clause type, then by normalized title, among the
targets absent from the matched-target-id set; a fallback match is appended
with confidence 0.7 and both unmatched lists are filtered. -/

structure ClauseRec where
  id : String
  clauseType : String
  title : Option String
  content : String
deriving DecidableEq

structure ClauseMatch where
  sourceClauseId : String
  targetClauseId : Option String
  matchConfidence : Rat
  matchReason : String
deriving DecidableEq

structure ClauseMatchingResult where
  -- field "matches" of the source; renamed because matches is a Lean keyword
  matchList : List ClauseMatch
  unmatchedSource : List String
  unmatchedTarget : List String
deriving DecidableEq

/-- The comparator of route.ts lines 161-166: by clause type, then id. -/
def byTypeThenId (a b : ClauseRec) : Bool :=
  decide (a.clauseType < b.clauseType) ||
    (a.clauseType == b.clauseType && decide (a.id ≤ b.id))

/-- JS truthiness of a nullable string. -/
def strTruthy : Option String → Bool
  | none => false
  | some s => s ≠ ""

/-- The global replace of /section|article|clause/ in route.ts line 203:
leftmost match, alternatives in written order, resume after the match. -/
def stripSectionWords : List Char → List Char
  | [] => []
  | 's' :: 'e' :: 'c' :: 't' :: 'i' :: 'o' :: 'n' :: rest => stripSectionWords rest
  | 'a' :: 'r' :: 't' :: 'i' :: 'c' :: 'l' :: 'e' :: rest => stripSectionWords rest
  | 'c' :: 'l' :: 'a' :: 'u' :: 's' :: 'e' :: rest => stripSectionWords rest
  | c :: rest => c :: stripSectionWords rest

/-- normalizeTitle of route.ts lines 198-204: lower-case, keep
alphanumerics, strip the section/article/clause tokens. -/
def normalizeTitle : Option String → String
  | none => ""
  | some title =>
    ⟨stripSectionWords (((strLower title).data.filter fun c => c.isLower || c.isDigit))⟩

/-- The fallback search of route.ts lines 209-225: first an unmatched
target of identical clause type, then an unmatched target of equal
normalized title (when the source title and its normalization are truthy). -/
def findFallbackTarget (targets : List ClauseRec) (matchedTargetIds : List String)
    (sourceClause : ClauseRec) : Option ClauseRec :=
  match targets.find? (fun tc =>
      tc.clauseType == sourceClause.clauseType && !matchedTargetIds.contains tc.id) with
  | some t => some t
  | none =>
    if strTruthy sourceClause.title then
      let sourceTitle := normalizeTitle sourceClause.title
      if sourceTitle ≠ "" then
        targets.find? fun tc =>
          !matchedTargetIds.contains tc.id && strTruthy tc.title &&
            normalizeTitle tc.title == sourceTitle
      else none
    else none

structure RepairState where
  matchList : List ClauseMatch
  matchedSourceIds : List String
  matchedTargetIds : List String
  unmatchedSource : List String
  unmatchedTarget : List String
deriving DecidableEq

/-- One iteration of the repair loop of route.ts lines 207-249. -/
def repairStep (targets : List ClauseRec) (st : RepairState)
    (sourceClause : ClauseRec) : RepairState :=
  if st.matchedSourceIds.contains sourceClause.id then st
  else
    match findFallbackTarget targets st.matchedTargetIds sourceClause with
    | none => st
    | some t =>
      { matchList := st.matchList ++
          [{ sourceClauseId := sourceClause.id
             targetClauseId := some t.id
             matchConfidence := 7 / 10
             matchReason :=
               if t.clauseType == sourceClause.clauseType then
                 "Matched by clause type: " ++ sourceClause.clauseType
               else "Matched by title similarity" }]
        matchedSourceIds := st.matchedSourceIds ++ [sourceClause.id]
        matchedTargetIds := st.matchedTargetIds ++ [t.id]
        unmatchedSource := st.unmatchedSource.filter fun i => i ≠ sourceClause.id
        unmatchedTarget := st.unmatchedTarget.filter fun i => i ≠ t.id }

/-- The repair pass of route.ts lines 189-250, applied to the sorted clause
lists.  The initial matched-id sets are rebuilt from the matcher's response;
JS filter(Boolean) drops null and empty-string target ids. -/
def repairMatches (sources targets : List ClauseRec)
    (r : ClauseMatchingResult) : ClauseMatchingResult :=
  let init : RepairState :=
    { matchList := r.matchList
      matchedSourceIds := r.matchList.map fun m => m.sourceClauseId
      matchedTargetIds := (r.matchList.filterMap fun m => m.targetClauseId).filter fun s => s ≠ ""
      unmatchedSource := r.unmatchedSource
      unmatchedTarget := r.unmatchedTarget }
  let fin := sources.foldl (repairStep targets) init
  { matchList := fin.matchList
    unmatchedSource := fin.unmatchedSource
    unmatchedTarget := fin.unmatchedTarget }

/-- How often a source clause id is accounted for by a matching result:
occurrences as a matched pair plus occurrences as unmatched source. -/
def sourceCount (r : ClauseMatchingResult) (i : String) : Nat :=
  (r.matchList.map fun m => m.sourceClauseId).count i + r.unmatchedSource.count i

/-- How often a target clause id is accounted for: occurrences as the
target of a matched pair plus occurrences as unmatched target. -/
def targetCount (r : ClauseMatchingResult) (i : String) : Nat :=
  (r.matchList.filterMap fun m => m.targetClauseId).count i + r.unmatchedTarget.count i

/-- The partition guarantee of spec section 4.3: every source clause id is
accounted for exactly once, and likewise every target clause id. -/
def PartitionsIds (sources targets : List ClauseRec) (r : ClauseMatchingResult) : Prop :=
  (∀ c ∈ sources, sourceCount r c.id = 1) ∧ (∀ c ∈ targets, targetCount r c.id = 1)

instance (sources targets : List ClauseRec) (r : ClauseMatchingResult) :
    Decidable (PartitionsIds sources targets r) := by
  unfold PartitionsIds; infer_instance


/-! ## Orchestration model

A sequential model of processComparisonInBackground (route.ts lines
151-540) and processFullComparisonInBackground (lines 108-148).  External
calls are supplied by an oracle; awaited concurrent calls (Promise.all) are
modelled in program order.  The database is a record of the fields the
claims are about; a trace lists the state after every database write, which
is what a concurrently polling reader can observe. -/

/-- Result payload of the external analyzeClauseRisk call. -/
structure RiskData where
  risk_score : Int
  risk_factors : List String
  deviation_percentage : Int
  summary : String

/-- The external calls of one orchestration run.  A none/error value models
the call reporting an error (in-band, as an ApiResponse with error). -/
structure Oracle where
  extractSource : Except String (List ExtractedClause)
  extractTarget : Except String (List ExtractedClause)
  matching : Option ClauseMatchingResult
  diffFn : String → String → List DiffPart
  risk : String → String → String → Option RiskData
  summaryGen : Option String
  tagsGen : Option (List String)

/-- The per-pair working record of route.ts lines 257-272. -/
structure ClauseCmpData where
  clauseType : String
  sourceClauseId : Option String
  targetClauseId : Option String
  status : String
  riskScore : Option Int
  riskFactors : Option (List String)
  deviationPercentage : Option Int
  diffSummary : Option String
  needsRiskAnalysis : Bool
  sourceContent : String
  targetContent : String
deriving DecidableEq

/-- JS Map built from (id, clause) pairs: the last entry per key wins. -/
def mapLookup (l : List ClauseRec) (i : String) : Option ClauseRec :=
  l.foldl (fun acc c => if c.id == i then some c else acc) none

/-- JS Map built from (clauseType, clause) pairs: last entry per type wins. -/
def typeLookup (l : List ClauseRec) (ty : String) : Option ClauseRec :=
  l.foldl (fun acc c => if c.clauseType == ty then some c else acc) none

/-- First occurrences, modelling JS Set iteration order. -/
def dedupKeepFirst : List String → List String
  | [] => []
  | x :: xs => x :: (dedupKeepFirst xs).filter fun y => y ≠ x

/-- Iteration order of the union of the two type-map key sets
(route.ts lines 375-378). -/
def typeKeys (sources targets : List ClauseRec) : List String :=
  dedupKeepFirst ((sources.map fun c => c.clauseType) ++ targets.map fun c => c.clauseType)

/-- A missing-in-target row (route.ts lines 286-293, 336-343, 394-401). -/
def missingRowOf (clauseType : String) (sourceId : String) : ClauseCmpData :=
  { clauseType := clauseType, sourceClauseId := some sourceId, targetClauseId := none
    status := "missing", riskScore := some 50, riskFactors := none
    deviationPercentage := none
    diffSummary := some "This clause is missing from the redlined version."
    needsRiskAnalysis := false, sourceContent := "", targetContent := "" }

/-- An added-in-target row (route.ts lines 351-358, 385-392). -/
def addedRowOf (clauseType : String) (targetId : String) : ClauseCmpData :=
  { clauseType := clauseType, sourceClauseId := none, targetClauseId := some targetId
    status := "added", riskScore := some 50, riskFactors := none
    deviationPercentage := none
    diffSummary := some "This clause was added in the redlined version."
    needsRiskAnalysis := false, sourceContent := "", targetContent := "" }

/-- A matched pair's row (route.ts lines 294-328 and 402-433): identical
after normalization, or classified by the word-diff change ratio and queued
for risk analysis. -/
def pairRow (o : Oracle) (sourceClause targetClause : ClauseRec) : ClauseCmpData :=
  let sourceContent := normalizeTextForComparison sourceClause.content
  let targetContent := normalizeTextForComparison targetClause.content
  if sourceContent = targetContent then
    { clauseType := sourceClause.clauseType, sourceClauseId := some sourceClause.id
      targetClauseId := some targetClause.id, status := "identical"
      riskScore := some 0, riskFactors := none, deviationPercentage := none
      diffSummary := none, needsRiskAnalysis := false
      sourceContent := "", targetContent := "" }
  else
    { clauseType := sourceClause.clauseType, sourceClauseId := some sourceClause.id
      targetClauseId := some targetClause.id
      status := diffStatus (o.diffFn sourceContent targetContent)
      riskScore := none, riskFactors := none, deviationPercentage := none
      diffSummary := none, needsRiskAnalysis := true
      sourceContent := sourceContent, targetContent := targetContent }

/-- A matched-pair entry of the repaired result (route.ts lines 277-329);
none when the source id does not resolve (the loop's continue). -/
def matchRow (o : Oracle) (sources targets : List ClauseRec)
    (m : ClauseMatch) : Option ClauseCmpData :=
  match mapLookup sources m.sourceClauseId with
  | none => none
  | some sourceClause =>
    match (match m.targetClauseId with
           | some tid => mapLookup targets tid
           | none => none) with
    | none => some (missingRowOf sourceClause.clauseType sourceClause.id)
    | some targetClause => some (pairRow o sourceClause targetClause)

/-- A type-keyed entry of the fallback path (route.ts lines 380-435). -/
def typeRow (o : Oracle) (sources targets : List ClauseRec)
    (ty : String) : Option ClauseCmpData :=
  match typeLookup sources ty, typeLookup targets ty with
  | none, some targetClause => some (addedRowOf ty targetClause.id)
  | some sourceClause, none => some (missingRowOf ty sourceClause.id)
  | some sourceClause, some targetClause => some (pairRow o sourceClause targetClause)
  | none, none => none

/-- The clause comparison data list of route.ts lines 159-436: sort, call
the semantic matcher, repair when it returned data, or fall back to
type-keyed matching when it failed. -/
def buildClauseData (o : Oracle) (sourceClauses targetClauses : List ClauseRec) :
    List ClauseCmpData :=
  let sortedSource := insertionSort byTypeThenId sourceClauses
  let sortedTarget := insertionSort byTypeThenId targetClauses
  match o.matching with
  | some r0 =>
    let r := repairMatches sortedSource sortedTarget r0
    (r.matchList.filterMap fun m => matchRow o sourceClauses targetClauses m) ++
      (r.unmatchedSource.filterMap fun i =>
        (mapLookup sourceClauses i).map fun c => missingRowOf c.clauseType c.id) ++
      (r.unmatchedTarget.filterMap fun i =>
        (mapLookup targetClauses i).map fun c => addedRowOf c.clauseType c.id)
  | none =>
    (typeKeys sourceClauses targetClauses).filterMap fun ty =>
      typeRow o sourceClauses targetClauses ty

/-- The risk-analysis application of route.ts lines 438-462: an errored
external call yields the fixed defaults 25 (minor) / 60 (otherwise) and a
generic diff summary. -/
def applyRisk (o : Oracle) (d : ClauseCmpData) : ClauseCmpData :=
  if d.needsRiskAnalysis then
    match o.risk d.sourceContent d.targetContent d.clauseType with
    | some ra =>
      { d with riskScore := some ra.risk_score, riskFactors := some ra.risk_factors
               deviationPercentage := some ra.deviation_percentage
               diffSummary := some ra.summary }
    | none =>
      { d with riskScore := some (if d.status = "minor_change" then 25 else 60)
               diffSummary := some ("Changes detected in " ++ d.clauseType ++ " clause.") }
  else d

/-- The clause data after the parallel risk-analysis phase. -/
def analyzedClauseData (o : Oracle) (sourceClauses targetClauses : List ClauseRec) :
    List ClauseCmpData :=
  (buildClauseData o sourceClauses targetClauses).map fun d => applyRisk o d

/-- A persisted ClauseComparison row (route.ts lines 465-476). -/
structure ClauseCmpRow where
  clauseType : String
  sourceClauseId : Option String
  targetClauseId : Option String
  status : String
  riskScore : Option Int
  riskFactors : Option (List String)
  deviationPercentage : Option Int
  diffSummary : Option String
deriving DecidableEq

/-- JS (v || null) on a nullable number: 0 is falsy. -/
def orNullInt : Option Int → Option Int
  | some v => if v = 0 then none else some v
  | none => none

/-- JS (s || null) on a nullable string: the empty string is falsy. -/
def orNullStr : Option String → Option String
  | some s => if s = "" then none else some s
  | none => none

/-- The insert mapping of route.ts lines 465-476. -/
def rowOfData (d : ClauseCmpData) : ClauseCmpRow :=
  { clauseType := d.clauseType, sourceClauseId := d.sourceClauseId
    targetClauseId := d.targetClauseId, status := d.status
    riskScore := orNullInt d.riskScore, riskFactors := d.riskFactors
    deviationPercentage := orNullInt d.deviationPercentage
    diffSummary := orNullStr d.diffSummary }

/-- The rows inserted by the single batch insert of route.ts line 479. -/
def comparisonRows (o : Oracle) (sourceClauses targetClauses : List ClauseRec) :
    List ClauseCmpRow :=
  (analyzedClauseData o sourceClauses targetClauses).map rowOfData

/-- The database record of one Comparison and its two contracts. -/
structure DbState where
  comparisonStatus : String
  errorMessage : Option String
  completedAt : Bool
  overallRiskScore : Option Int
  summary : Option String
  semanticTags : Option (List String)
  rows : List ClauseCmpRow
  sourceContractStatus : String
  targetContractStatus : String
deriving DecidableEq

/-- The state right after POST /api/compare created the records (route.ts
lines 559-595): contracts pending, comparison processing, nothing else. -/
def initialDbState : DbState :=
  { comparisonStatus := "processing", errorMessage := none, completedAt := false
    overallRiskScore := none, summary := none, semanticTags := none
    rows := [], sourceContractStatus := "pending", targetContractStatus := "pending" }

/-- Sort comparator for the results list of route.ts line 491. -/
def byCmpType (a b : ClauseCmpData) : Bool := decide (a.clauseType ≤ b.clauseType)

/-- Writes of processComparisonInBackground (route.ts lines 151-540) after
the clause lists are known: the batch insert of all rows (line 479), then
the single completing update (lines 516-525).  The listed states are what a
reader observes after each write. -/
def runComparisonTrace (o : Oracle) (sourceClauses targetClauses : List ClauseRec)
    (s0 : DbState) : List DbState :=
  let rowList := comparisonRows o sourceClauses targetClauses
  let sIns := { s0 with rows := s0.rows ++ rowList }
  let results := insertionSort byCmpType (analyzedClauseData o sourceClauses targetClauses)
  let overall := calculateOverallRisk (results.filterMap fun c => c.riskScore)
  let sFin := { sIns with
    overallRiskScore := some overall,
    summary := orNullStr o.summaryGen,
    semanticTags := o.tagsGen,
    comparisonStatus := "completed",
    completedAt := true }
  [sIns, sFin]

/-- Database clause records created for the extracted and deduplicated
clauses; ids are fresh uuids in the source, modelled positionally. -/
def assignIds (pre : String) (l : List ExtractedClause) : List ClauseRec :=
  l.enum.map fun p =>
    { id := pre ++ toString p.1, clauseType := p.2.clause_type
      title := some p.2.title, content := p.2.content }

/-- Writes of processFullComparisonInBackground (route.ts lines 108-148),
sequentially: mark both contracts processing, extract and save for each
contract (extractAndSaveClauses, lines 15-105; an extraction error throws),
then run the comparison; the catch block marks the comparison failed and
both contracts failed. -/
def runFullTrace (o : Oracle) (s0 : DbState) : List DbState :=
  let s1 := { s0 with sourceContractStatus := "processing" }
  let s2 := { s1 with targetContractStatus := "processing" }
  match o.extractSource with
  | .error e =>
    let sf := { s2 with
      comparisonStatus := "failed",
      errorMessage := some ("Failed to extract clauses: " ++ e),
      completedAt := true }
    let sc1 := { sf with sourceContractStatus := "failed" }
    let sc2 := { sc1 with targetContractStatus := "failed" }
    [s1, s2, sf, sc1, sc2]
  | .ok srcExtracted =>
    let sourceClauses := assignIds "src" (dedupClauses srcExtracted)
    let s3 := { s2 with sourceContractStatus := "completed" }
    match o.extractTarget with
    | .error e =>
      let sf := { s3 with
        comparisonStatus := "failed",
        errorMessage := some ("Failed to extract clauses: " ++ e),
        completedAt := true }
      let sc1 := { sf with sourceContractStatus := "failed" }
      let sc2 := { sc1 with targetContractStatus := "failed" }
      [s1, s2, s3, sf, sc1, sc2]
    | .ok tgtExtracted =>
      let targetClauses := assignIds "tgt" (dedupClauses tgtExtracted)
      let s4 := { s3 with targetContractStatus := "completed" }
      [s1, s2, s3, s4] ++ runComparisonTrace o sourceClauses targetClauses s4

/-- The terminal state of a full run. -/
def finalState (o : Oracle) : DbState :=
  (runFullTrace o initialDbState).getLastD initialDbState

/-- What GET /api/compare/[id] returns for the ClauseComparison table
([id]/route.ts lines 54-57): the rows, unconditionally, with no check of
the comparison status. -/
def readClauseComparisons (s : DbState) : List ClauseCmpRow := s.rows


/-! ## Concrete instances used to exercise the theorems -/

/-- A single source clause with no counterpart. -/
def soloSource : ClauseRec := { id := "s1", clauseType := "termination", title := none, content := "x" }

/-- A single target clause of the same type. -/
def soloTarget : ClauseRec := { id := "t1", clauseType := "termination", title := none, content := "y" }

/-- A semantic-matcher response that is complete and consistent for
([soloSource], [soloTarget]): no matches, both ids unmatched. -/
def honestResponse : ClauseMatchingResult :=
  { matchList := [], unmatchedSource := ["s1"], unmatchedTarget := ["t1"] }

/-- A semantic-matcher response that silently drops every id. -/
def emptyResponse : ClauseMatchingResult :=
  { matchList := [], unmatchedSource := [], unmatchedTarget := [] }

/-- An oracle whose external calls all fail or return nothing. -/
def baseOracle : Oracle :=
  { extractSource := .ok [], extractTarget := .ok [], matching := none
    diffFn := fun _ _ => [], risk := fun _ _ _ => none
    summaryGen := none, tagsGen := none }

/-- Extraction yields one source clause and no target clause; the matcher
errors, so the run takes the type-keyed fallback. -/
def oneClauseOracle : Oracle :=
  { baseOracle with extractSource := .ok [⟨"termination", "T", "x", none, none⟩] }

/-- Source extraction reports an error. -/
def extractFailOracle : Oracle := { baseOracle with extractSource := .error "boom" }

/-- The word-diff reported for the changed pair: everything removed and
re-added, so the change ratio is 1. -/
def fullChangeOracle : Oracle :=
  { baseOracle with diffFn := fun _ _ => [⟨"x", false, true⟩, ⟨"y", true, false⟩] }

/-- A diff with five characters of which one is added: ratio exactly 1/5. -/
def boundaryOracle : Oracle :=
  { baseOracle with diffFn := fun _ _ => [⟨"aaaa", false, false⟩, ⟨"x", true, false⟩] }

/-- 201 repetitions of a. -/
def longA : String := ⟨List.replicate 201 'a'⟩

/-- 200 repetitions of a followed by b: differs from longA at position 200
(within the first 300 characters) but agrees on the first 200. -/
def longB : String := ⟨List.replicate 200 'a' ++ ['b']⟩

def cand1 : ExtractedClause := ⟨"termination", "T", longA, none, none⟩

def cand2 : ExtractedClause := ⟨"termination", "T", longB, none, none⟩

/-- Two same-type candidates that differ within the first 300 normalized
characters (at position 200) but do not differ within the first 200. -/
def candPair : List ExtractedClause := [cand1, cand2]



/-- The first 200 characters of a candidate's dedup fingerprint (the prefix
compared by rule (a) of the deduplicator). -/
def fp200 (c : ExtractedClause) : String :=
  strTake (normalizeTextForComparison (strLower c.content)) 200

/-- The invariant carried through the repair fold: both id populations stay
accounted for exactly once, and the matched-id sets mirror the match list
(for target ids, up to the empty string dropped by filter(Boolean)). -/
def RepairInv (sources targets : List ClauseRec) (st : RepairState) : Prop :=
  (∀ c ∈ sources,
    (st.matchList.map fun m => m.sourceClauseId).count c.id +
      st.unmatchedSource.count c.id = 1) ∧
  (∀ c ∈ targets,
    (st.matchList.filterMap fun m => m.targetClauseId).count c.id +
      st.unmatchedTarget.count c.id = 1) ∧
  (∀ i, i ∈ st.matchedSourceIds ↔ i ∈ st.matchList.map fun m => m.sourceClauseId) ∧
  (∀ i, i ≠ "" →
    (i ∈ st.matchedTargetIds ↔ i ∈ st.matchList.filterMap fun m => m.targetClauseId))


/-- The terminal state of the comparison phase alone. -/
def comparisonFinal (o : Oracle) (sourceClauses targetClauses : List ClauseRec) : DbState :=
  (runComparisonTrace o sourceClauses targetClauses initialDbState).getLastD initialDbState

/-- The analyzed record of the changed pair ([soloSource], [soloTarget])
under fullChangeOracle: significant change, defaulted risk score. -/
def dC8 : ClauseCmpData :=
  { clauseType := "termination", sourceClauseId := some "s1", targetClauseId := some "t1"
    status := "significant_change", riskScore := some 60, riskFactors := none
    deviationPercentage := none
    diffSummary := some "Changes detected in termination clause."
    needsRiskAnalysis := true, sourceContent := "x", targetContent := "y" }


/-! ### Normal-form scan predicates for the normalizer

Each predicate characterizes, as a single left-to-right scan, the inputs on
which one normalization rule is the identity. -/

/-- No carriage return anywhere (rule 1 is the identity). -/
def noCR (l : List Char) : Bool := l.all fun c => c ≠ '\r'

/-- Every horizontal-whitespace character is a single space: no tab, and no
two adjacent horizontal-whitespace characters (rule 2 is the identity).  The
flag records whether the previous character was horizontal whitespace. -/
def hwsOK : Bool → List Char → Bool
  | _, [] => true
  | prevHWS, c :: rest =>
    if isHWS c then (c = ' ' && !prevHWS) && hwsOK true rest
    else hwsOK false rest

/-- Every newline run has length at most two (rule 3 is the identity).  The
counter is the length of the current run so far. -/
def nlRunsLE2 : Nat → List Char → Bool
  | _, [] => true
  | k, c :: rest =>
    if c = '\n' then (k + 1 ≤ 2 : Bool) && nlRunsLE2 (k + 1) rest
    else nlRunsLE2 0 rest

/-- No horizontal whitespace at a line start, before a newline, or at the
end of the input (rule 4 is the identity).  The flag is true at the start
of a line. -/
def linesOK : Bool → List Char → Bool
  | _, [] => true
  | atStart, c :: rest =>
    if c = '\n' then linesOK true rest
    else if isHWS c then
      (!atStart && (match rest with
        | [] => false
        | d :: _ => !(d = '\n' : Bool))) && linesOK false rest
    else linesOK false rest

/-! # Theorems -/

/-- Helper: a JS-reduce style accumulating sum equals the map-sum form. -/
theorem foldl_add_map (f : Int → Rat) (l : List Int) : ∀ c : Rat,
    l.foldl (fun sum r => sum + f r) c = c + (l.map f).sum := by
  induction l with
  | nil => intro c; simp
  | cons x xs ih => intro c; simp [ih, add_assoc]

/-- Claim C4: the risk aggregator equals the spec's reference definition --
weight 2 for a score of at least 75, 1.5 for at least 50, 1 otherwise,
overall = round of the weighted mean -- with 0 for the empty list; the
spec's sample values are also recomputed. -/
theorem C4_risk_aggregator_formula :
    (∀ scores : List Int, calculateOverallRisk scores = specAggregate scores) ∧
    calculateOverallRisk [] = 0 ∧
    calculateOverallRisk [80, 80] = 80 ∧ calculateOverallRisk [10, 90] = 63 := by
  have key : ∀ scores : List Int, calculateOverallRisk scores = specAggregate scores := by
    intro scores
    rcases scores with _ | ⟨a, t⟩
    · simp [calculateOverallRisk, specAggregate]
    · simp [calculateOverallRisk, specAggregate, foldl_add_map]
  refine ⟨key, by simp [calculateOverallRisk], ?_, ?_⟩
  · rw [key, specAggregate, if_neg (by decide : ¬([80, 80] : List Int) = [])]
    simp only [List.map, List.sum_cons, List.sum_nil, riskWeight]
    norm_num [round_eq]
  · rw [key, specAggregate, if_neg (by decide : ¬([10, 90] : List Int) = [])]
    simp only [List.map, List.sum_cons, List.sum_nil, riskWeight]
    norm_num [round_eq]

/-- Claim C5: for a matched pair whose normalized texts differ, the status
is significant_change exactly when the change ratio is at least 0.20 (so
the 0.20 boundary lands on the significant side). -/
theorem C5_diff_classifier_threshold (o : Oracle) (sc tc : ClauseRec)
    (h : normalizeTextForComparison sc.content ≠ normalizeTextForComparison tc.content) :
    (pairRow o sc tc).status = "significant_change" ↔
      1 / 5 ≤ changeFrac (o.diffFn (normalizeTextForComparison sc.content)
        (normalizeTextForComparison tc.content)) := by
  have hne : ("minor_change" : String) ≠ "significant_change" := by decide
  simp only [pairRow, if_neg h]
  by_cases hlt : changeFrac (o.diffFn (normalizeTextForComparison sc.content)
      (normalizeTextForComparison tc.content)) < 1 / 5
  · simp [diffStatus, if_pos hlt, hne, not_le.mpr hlt]
  · simp [diffStatus, if_neg hlt, le_of_not_lt hlt]

/-- Witness for C5 at a diff whose change ratio is exactly 1/5. -/
theorem C5_witness :
    normalizeTextForComparison soloSource.content ≠ normalizeTextForComparison soloTarget.content ∧
    (pairRow boundaryOracle soloSource soloTarget).status = "significant_change" := by
  have h : normalizeTextForComparison soloSource.content ≠
      normalizeTextForComparison soloTarget.content := by decide
  refine ⟨h, (C5_diff_classifier_threshold boundaryOracle soloSource soloTarget h).mpr ?_⟩
  have h4 : ("aaaa" : String).length = 4 := by decide
  have h1 : ("x" : String).length = 1 := by decide
  simp [boundaryOracle, baseOracle, changeFrac, changedChars, totalChars, h4, h1]

/-- Claim C10: the change ratio is well defined: the changed-character
count never exceeds the total, the division is guarded by a positivity
check (a zero total gives ratio 0), and the ratio always lies in [0, 1]. -/
theorem C10_change_ratio_well_defined (diff : List DiffPart) :
    changedChars diff ≤ totalChars diff ∧ 0 ≤ changeFrac diff ∧ changeFrac diff ≤ 1 ∧
      (totalChars diff = 0 → changeFrac diff = 0) := by
  have hsub : changedChars diff ≤ totalChars diff := by
    induction diff with
    | nil => simp [changedChars, totalChars]
    | cons p t ih =>
      by_cases hp : (p.added || p.removed) = true <;>
        simp [changedChars, totalChars, hp] at ih ⊢ <;> omega
  refine ⟨hsub, ?_, ?_, ?_⟩
  · unfold changeFrac
    split_ifs with hpos
    · positivity
    · exact le_rfl
  · unfold changeFrac
    split_ifs with hpos
    · rw [div_le_one (by exact_mod_cast hpos)]
      exact_mod_cast hsub
    · norm_num
  · intro h0
    unfold changeFrac
    simp [h0]

/-- Witness for C10 at the empty diff, where the guard fires. -/
theorem C10_witness : changeFrac [] = 0 ∧ changedChars [] ≤ totalChars [] :=
  ⟨(C10_change_ratio_well_defined []).2.2.2 rfl, (C10_change_ratio_well_defined []).1⟩


/-! ### Claim C1: the matcher repair pass and the partition guarantee -/

theorem contains_iff (l : List String) (a : String) : l.contains a = true ↔ a ∈ l :=
  List.elem_iff

/-- Count in a filtered list, at the removed value. -/
theorem count_filter_ne_self (l : List String) (a : String) :
    (l.filter fun i => i ≠ a).count a = 0 := by
  rw [List.count_eq_zero]
  intro hmem
  have := (List.mem_filter.mp hmem).2
  simp at this

/-- Count in a filtered list, at any other value. -/
theorem count_filter_ne_other (l : List String) (a b : String) (h : b ≠ a) :
    (l.filter fun i => i ≠ a).count b = l.count b :=
  List.count_filter (by simp [h])

/-- Count after appending one element. -/
theorem count_append_singleton (l : List String) (x a : String) :
    (l ++ [x]).count a = l.count a + (if a = x then 1 else 0) := by
  by_cases h : a = x
  · subst h
    simp [List.count_append]
  · simp [List.count_append, List.count_cons, h, Ne.symm h]

/-- Appending a match with a non-null target id extends the projected
target-id list by exactly that id. -/
theorem filterMap_target_append (l : List ClauseMatch) (m : ClauseMatch) (tid : String)
    (hm : m.targetClauseId = some tid) :
    ((l ++ [m]).filterMap fun m => m.targetClauseId) =
      (l.filterMap fun m => m.targetClauseId) ++ [tid] := by
  rw [List.filterMap_append]
  simp [List.filterMap_cons, hm]

/-- A fallback target returned by the search is a real target clause whose
id is not among the matched target ids. -/
theorem findFallbackTarget_spec (targets : List ClauseRec) (mt : List String)
    (sc t : ClauseRec) (h : findFallbackTarget targets mt sc = some t) :
    t ∈ targets ∧ ¬ t.id ∈ mt := by
  unfold findFallbackTarget at h
  cases hfind : targets.find? (fun tc =>
      tc.clauseType == sc.clauseType && !mt.contains tc.id) with
  | some u =>
    rw [hfind] at h
    injection h with h'
    subst h'
    have hp := List.find?_some hfind
    have hmem := List.mem_of_find?_eq_some hfind
    simp only [Bool.and_eq_true, Bool.not_eq_true'] at hp
    refine ⟨hmem, fun hmm => ?_⟩
    have hc := (contains_iff _ _).mpr hmm
    rw [hp.2] at hc
    exact Bool.false_ne_true hc
  | none =>
    rw [hfind] at h
    by_cases h1 : strTruthy sc.title
    · rw [if_pos h1] at h
      by_cases h2 : normalizeTitle sc.title ≠ ""
      · rw [if_pos h2] at h
        have hp := List.find?_some h
        have hmem := List.mem_of_find?_eq_some h
        simp only [Bool.and_eq_true, Bool.not_eq_true'] at hp
        refine ⟨hmem, fun hmm => ?_⟩
        have hc := (contains_iff _ _).mpr hmm
        rw [hp.1.1] at hc
        exact Bool.false_ne_true hc
      · rw [if_neg h2] at h
        exact absurd h (by simp)
    · rw [if_neg h1] at h
      exact absurd h (by simp)

/-- One repair step preserves the invariant, provided no target clause has
the empty string as id. -/
theorem repairStep_inv (sources targets : List ClauseRec)
    (hne : ¬ "" ∈ targets.map fun c => c.id) (st : RepairState) (sc : ClauseRec)
    (h : RepairInv sources targets st) :
    RepairInv sources targets (repairStep targets st sc) := by
  obtain ⟨hs, ht, hmsi, hmti⟩ := h
  unfold repairStep
  by_cases hin : st.matchedSourceIds.contains sc.id
  · simp only [hin, if_true]
    exact ⟨hs, ht, hmsi, hmti⟩
  · rw [if_neg (by simpa using hin)]
    cases hfb : findFallbackTarget targets st.matchedTargetIds sc with
    | none => exact ⟨hs, ht, hmsi, hmti⟩
    | some t =>
      obtain ⟨htmem, htnotin⟩ := findFallbackTarget_spec targets st.matchedTargetIds sc t hfb
      have htid_ne : t.id ≠ "" := fun h0 => hne (List.mem_map.mpr ⟨t, htmem, h0⟩)
      have hscnot : ¬ sc.id ∈ st.matchList.map fun m => m.sourceClauseId := by
        intro hmem
        exact hin ((contains_iff _ _).mpr ((hmsi sc.id).mpr hmem))
      have hsc0 : (st.matchList.map fun m => m.sourceClauseId).count sc.id = 0 :=
        List.count_eq_zero.mpr hscnot
      have htnot : ¬ t.id ∈ st.matchList.filterMap fun m => m.targetClauseId :=
        fun hmem => htnotin ((hmti t.id htid_ne).mpr hmem)
      have ht0 : (st.matchList.filterMap fun m => m.targetClauseId).count t.id = 0 :=
        List.count_eq_zero.mpr htnot
      refine ⟨?_, ?_, ?_, ?_⟩
      · intro c hc
        have hold := hs c hc
        dsimp only
        simp only [List.map_append, List.map_cons, List.map_nil]
        rw [count_append_singleton]
        by_cases hceq : c.id = sc.id
        · rw [hceq] at hold ⊢
          rw [hsc0] at hold
          rw [hsc0, count_filter_ne_self, if_pos rfl]
        · rw [count_filter_ne_other _ _ _ hceq, if_neg hceq]
          omega
      · intro c hc
        have hold := ht c hc
        dsimp only
        rw [filterMap_target_append _ _ t.id rfl, count_append_singleton]
        by_cases hceq : c.id = t.id
        · rw [hceq] at hold ⊢
          rw [ht0] at hold
          rw [ht0, count_filter_ne_self, if_pos rfl]
        · rw [count_filter_ne_other _ _ _ hceq, if_neg hceq]
          omega
      · intro i
        dsimp only
        simp only [List.map_append, List.map_cons, List.map_nil, List.mem_append,
          List.mem_singleton]
        exact or_congr (hmsi i) Iff.rfl
      · intro i hi
        dsimp only
        rw [filterMap_target_append _ _ t.id rfl]
        simp only [List.mem_append, List.mem_singleton]
        exact or_congr (hmti i hi) Iff.rfl

/-- The whole repair fold preserves the invariant. -/
theorem repairFold_inv (sources targets : List ClauseRec)
    (hne : ¬ "" ∈ targets.map fun c => c.id) (l : List ClauseRec) :
    ∀ st : RepairState, RepairInv sources targets st →
      RepairInv sources targets (l.foldl (repairStep targets) st) := by
  induction l with
  | nil => intro st h; exact h
  | cons x xs ih =>
    intro st h
    exact ih _ (repairStep_inv sources targets hne st x h)

/-- Claim C1, amended: the repair pass preserves the partition.  Whenever
the semantic matcher's response itself accounts for every source clause id
exactly once (across matched pairs and unmatchedSource) and every target
clause id exactly once (across matched pairs and unmatchedTarget), and no
target clause has the empty string as id, the repaired result still
accounts for every source and target id exactly once: fallback matching
only moves ids from the unmatched lists into matched pairs.  For arbitrary
incomplete or inconsistent responses the guarantee fails (see the
counterexample): an id dropped by the matcher with no type or title
counterpart stays dropped. -/
theorem C1_repair_preserves_partition (sources targets : List ClauseRec)
    (r : ClauseMatchingResult) (hpart : PartitionsIds sources targets r)
    (hne : ¬ "" ∈ targets.map fun c => c.id) :
    PartitionsIds sources targets (repairMatches sources targets r) := by
  unfold repairMatches
  have hinit : RepairInv sources targets
      { matchList := r.matchList
        matchedSourceIds := r.matchList.map fun m => m.sourceClauseId
        matchedTargetIds :=
          (r.matchList.filterMap fun m => m.targetClauseId).filter fun s => s ≠ ""
        unmatchedSource := r.unmatchedSource
        unmatchedTarget := r.unmatchedTarget } := by
    refine ⟨hpart.1, hpart.2, fun i => Iff.rfl, fun i hi => ?_⟩
    simp [List.mem_filter, hi]
  have hfin := repairFold_inv sources targets hne sources _ hinit
  exact ⟨hfin.1, hfin.2.1⟩

/-- Claim C1 as stated is false on the code: for the source list with the
single clause s1, the empty target list, and a semantic-matcher response
that returns empty matches and empty unmatched lists (an incomplete
response), the repair pass leaves s1 unaccounted for: it appears in no
category at all. -/
theorem C1_counterexample :
    ¬ PartitionsIds [soloSource] [] (repairMatches [soloSource] [] emptyResponse) := by
  decide

/-- Witness for the amended C1 at a complete, consistent response: the
repair pass turns the two unmatched same-type clauses into a matched pair
and the partition survives. -/
theorem C1_witness :
    PartitionsIds [soloSource] [soloTarget] honestResponse ∧
    PartitionsIds [soloSource] [soloTarget]
      (repairMatches [soloSource] [soloTarget] honestResponse) :=
  ⟨by decide, C1_repair_preserves_partition [soloSource] [soloTarget] honestResponse
    (by decide) (by decide)⟩


/-! ### Claim C6: deduplicator survival -/

theorem mem_insertLE {α : Type} (le : α → α → Bool) (x a : α) (l : List α) :
    a ∈ insertLE le x l ↔ a = x ∨ a ∈ l := by
  induction l with
  | nil => simp [insertLE]
  | cons y ys ih =>
    unfold insertLE
    split_ifs with h
    · simp
    · simp [ih]
      tauto

theorem mem_insertionSort {α : Type} (le : α → α → Bool) (a : α) (l : List α) :
    a ∈ insertionSort le l ↔ a ∈ l := by
  induction l with
  | nil => simp [insertionSort]
  | cons y ys ih =>
    unfold insertionSort
    rw [mem_insertLE, ih]
    simp

theorem strTake_strTake (s : String) (m n : Nat) (h : m ≤ n) :
    strTake (strTake s n) m = strTake s m := by
  simp [strTake, List.take_take, Nat.min_eq_left h]

/-- The first component of a dedup step: either unchanged or extended by
the processed candidate. -/
theorem dedupStep_fst (st : List ExtractedClause × List String × List String)
    (z : ExtractedClause) :
    (dedupStep st z).1 = st.1 ∨ (dedupStep st z).1 = st.1 ++ [z] := by
  simp only [dedupStep]
  split_ifs <;> simp

/-- The seen-hash list mirrors the kept list through a dedup step. -/
theorem dedupStep_hashes (st : List ExtractedClause × List String × List String)
    (z : ExtractedClause)
    (h : st.2.1 = st.1.map fun c => fingerprint c.content) :
    (dedupStep st z).2.1 = (dedupStep st z).1.map fun c => fingerprint c.content := by
  simp only [dedupStep]
  split_ifs <;> simp [h]

/-- A candidate whose first 200 normalized characters differ from those of
every kept clause is not dropped by a dedup step. -/
theorem dedupStep_keeps (st : List ExtractedClause × List String × List String)
    (x : ExtractedClause)
    (hinv : st.2.1 = st.1.map fun c => fingerprint c.content)
    (hkept : ∀ d ∈ st.1, fp200 d ≠ fp200 x) :
    (dedupStep st x).1 = st.1 ++ [x] := by
  have hany : (st.2.1.any fun seenHash =>
      strTake seenHash 200 == strTake (fingerprint x.content) 200) = false := by
    rw [List.any_eq_false]
    intro h hmem
    rw [hinv] at hmem
    obtain ⟨d, hd, rfl⟩ := List.mem_map.mp hmem
    simp only [beq_iff_eq]
    unfold fingerprint
    rw [strTake_strTake _ _ _ (by omega), strTake_strTake _ _ _ (by omega)]
    exact hkept d hd
  simp only [dedupStep]
  rw [hany]
  cases hty : st.2.2.contains x.clause_type with
  | false => simp
  | true =>
    simp only [Bool.not_false, Bool.true_and, hty]
    cases hfind : st.1.find? (fun c => c.clause_type == x.clause_type) with
    | none => simp
    | some e =>
      have hemem := List.mem_of_find?_eq_some hfind
      have h300 : (strTake (fingerprint x.content) 300 ==
          strTake (normalizeTextForComparison (strLower e.content)) 300) = false := by
        rw [beq_eq_false_iff_ne]
        intro heq
        apply hkept e hemem
        have h2 := congrArg (fun s => strTake s 200) heq
        simp only at h2
        unfold fingerprint at h2
        rw [strTake_strTake _ _ _ (by omega), strTake_strTake _ _ _ (by omega),
          strTake_strTake _ _ _ (by omega)] at h2
        unfold fp200
        exact h2.symm
      simp [h300]

/-- Through the dedup fold, a candidate whose first 200 normalized
characters are unique ends up in the kept list. -/
theorem dedupFold_keeps (x : ExtractedClause) (l : List ExtractedClause) :
    ∀ st : List ExtractedClause × List String × List String,
      st.2.1 = (st.1.map fun c => fingerprint c.content) →
      (∀ d ∈ st.1, d = x ∨ fp200 d ≠ fp200 x) →
      (x ∈ st.1 ∨ x ∈ l) →
      (∀ d ∈ l, d = x ∨ fp200 d ≠ fp200 x) →
      x ∈ (l.foldl dedupStep st).1 := by
  induction l with
  | nil =>
    intro st _ _ hx _
    simpa using hx
  | cons z zs ih =>
    intro st hinv hkept hx hl
    have hinv' := dedupStep_hashes st z hinv
    have hfst := dedupStep_fst st z
    have hkept' : ∀ d ∈ (dedupStep st z).1, d = x ∨ fp200 d ≠ fp200 x := by
      rcases hfst with hf | hf <;> rw [hf]
      · exact hkept
      · intro d hd
        rcases List.mem_append.mp hd with hd | hd
        · exact hkept d hd
        · rw [List.mem_singleton.mp hd]
          exact hl z (by simp)
    have hl' : ∀ d ∈ zs, d = x ∨ fp200 d ≠ fp200 x := fun d hd => hl d (by simp [hd])
    by_cases hxin : x ∈ st.1
    · refine ih (dedupStep st z) hinv' hkept' (Or.inl ?_) hl'
      rcases hfst with hf | hf <;> rw [hf]
      · exact hxin
      · exact List.mem_append.mpr (Or.inl hxin)
    · by_cases hzx : z = x
      · subst hzx
        have hkeepsx : (dedupStep st z).1 = st.1 ++ [z] :=
          dedupStep_keeps st z hinv (fun d hd => by
            rcases hkept d hd with h | h
            · exact absurd (h ▸ hd) hxin
            · exact h)
        refine ih (dedupStep st z) hinv' hkept' (Or.inl ?_) hl'
        rw [hkeepsx]
        simp
      · have hxzs : x ∈ zs := by
          rcases hx with hx | hx
          · exact absurd hx hxin
          · rcases List.mem_cons.mp hx with hx | hx
            · exact absurd hx.symm hzx
            · exact hx
        exact ih (dedupStep st z) hinv' hkept' (Or.inr hxzs) hl'

/-- A candidate whose first 200 normalized characters differ from those of
every other candidate survives dedupClauses. -/
theorem dedup_survives (cands : List ExtractedClause) (x : ExtractedClause)
    (hx : x ∈ cands) (hd : ∀ d ∈ cands, d ≠ x → fp200 d ≠ fp200 x) :
    x ∈ dedupClauses cands := by
  unfold dedupClauses
  rw [mem_insertionSort]
  have hsorted : ∀ d ∈ insertionSort byConfDesc cands, d = x ∨ fp200 d ≠ fp200 x := by
    intro d hdm
    rw [mem_insertionSort] at hdm
    by_cases hdx : d = x
    · exact Or.inl hdx
    · exact Or.inr (hd d hdm hdx)
  exact dedupFold_keeps x (insertionSort byConfDesc cands) ([], [], []) rfl
    (by simp) (Or.inr ((mem_insertionSort _ _ _).mpr hx)) hsorted

/-- Claim C6, amended: two candidates of the same declared clause type both
survive deduplication provided their normalized contents differ within the
first 200 characters from each other and from every other candidate (the
first 200 characters are what dedup rule (a) compares, and a 300-character
match in rule (b) forces a 200-character match).  Differing only within the
first 300 characters is not enough: see the counterexample, where a pair
agreeing on the first 200 characters loses one member. -/
theorem C6_dedup_same_type_survival (cands : List ExtractedClause)
    (c₁ c₂ : ExtractedClause) (h1 : c₁ ∈ cands) (h2 : c₂ ∈ cands)
    (_hty : c₁.clause_type = c₂.clause_type)
    (hd1 : ∀ d ∈ cands, d ≠ c₁ → fp200 d ≠ fp200 c₁)
    (hd2 : ∀ d ∈ cands, d ≠ c₂ → fp200 d ≠ fp200 c₂) :
    c₁ ∈ dedupClauses cands ∧ c₂ ∈ dedupClauses cands :=
  ⟨dedup_survives cands c₁ h1 hd1, dedup_survives cands c₂ h2 hd2⟩

set_option maxRecDepth 80000 in
/-- Claim C6 as stated is false on the code: cand1 and cand2 share a clause
type and differ at position 200 of their normalized contents (within the
first 300 characters), yet only one of them survives: dedup rule (a)
compares only the first 200 characters, which agree. -/
theorem C6_counterexample :
    ¬ (cand1 ∈ dedupClauses candPair ∧ cand2 ∈ dedupClauses candPair) := by
  decide

set_option maxRecDepth 80000 in
/-- Witness for the amended C6: two same-type candidates differing within
the first 200 characters both survive. -/
theorem C6_witness :
    (⟨"termination", "T", "alpha", none, none⟩ : ExtractedClause) ∈
      dedupClauses [⟨"termination", "T", "alpha", none, none⟩,
        ⟨"termination", "T", "beta", none, none⟩] ∧
    (⟨"termination", "T", "beta", none, none⟩ : ExtractedClause) ∈
      dedupClauses [⟨"termination", "T", "alpha", none, none⟩,
        ⟨"termination", "T", "beta", none, none⟩] :=
  C6_dedup_same_type_survival _ _ _ (by decide) (by decide) (by decide)
    (by decide) (by decide)


/-! ### Claims C2, C7, C8, C9: the orchestration run -/

/-- Claim C2 as stated is false on the code: in a successful run with one
extracted source clause, the ClauseComparison rows are batch-inserted
(route.ts line 479) before the status update to completed (line 522), and
GET /api/compare/[id] returns them unconditionally, so a reader observes a
nonempty row set while the Comparison is still processing. -/
theorem C2_counterexample :
    ¬ (∀ s ∈ runFullTrace oneClauseOracle initialDbState,
        s.comparisonStatus = "processing" → readClauseComparisons s = []) := by
  decide

/-- Claim C2, amended: the rows are still written atomically in one batch.
In every run there is a single batch such that a reader observes either no
ClauseComparison rows or exactly that complete batch -- never a strict
partial subset; however the batch can already be visible while the status
is still processing (see the counterexample). -/
theorem C2_rows_single_batch (o : Oracle) :
    ∃ batch : List ClauseCmpRow,
      ∀ s ∈ runFullTrace o initialDbState,
        readClauseComparisons s = [] ∨ readClauseComparisons s = batch := by
  unfold runFullTrace
  cases hs : o.extractSource with
  | error e =>
    refine ⟨[], ?_⟩
    intro s hmem
    simp only [List.mem_cons, List.not_mem_nil, or_false] at hmem
    rcases hmem with rfl | rfl | rfl | rfl | rfl <;>
      simp [readClauseComparisons, initialDbState]
  | ok srcExtracted =>
    cases ht : o.extractTarget with
    | error e =>
      refine ⟨[], ?_⟩
      intro s hmem
      simp only [List.mem_cons, List.not_mem_nil, or_false] at hmem
      rcases hmem with rfl | rfl | rfl | rfl | rfl | rfl <;>
        simp [readClauseComparisons, initialDbState]
    | ok tgtExtracted =>
      refine ⟨comparisonRows o (assignIds "src" (dedupClauses srcExtracted))
        (assignIds "tgt" (dedupClauses tgtExtracted)), ?_⟩
      intro s hmem
      simp only [runComparisonTrace, List.mem_append, List.mem_cons, List.not_mem_nil,
        or_false] at hmem
      rcases hmem with (rfl | rfl | rfl | rfl) | rfl | rfl <;>
        simp [readClauseComparisons, initialDbState]

/-- Witness for the amended C2 at the one-clause run. -/
theorem C2_witness :
    ∃ batch : List ClauseCmpRow,
      ∀ s ∈ runFullTrace oneClauseOracle initialDbState,
        readClauseComparisons s = [] ∨ readClauseComparisons s = batch :=
  C2_rows_single_batch oneClauseOracle

/-- Claim C7: an extraction error for either contract is fatal and atomic:
the run ends failed with the extraction error message recorded and
completedAt set, both contracts are marked failed, and no ClauseComparison
row is ever written during the run. -/
theorem C7_extraction_failure_fatal (o : Oracle)
    (h : (∃ e, o.extractSource = .error e) ∨ (∃ e, o.extractTarget = .error e)) :
    (finalState o).comparisonStatus = "failed" ∧
    (∃ e, (finalState o).errorMessage = some ("Failed to extract clauses: " ++ e)) ∧
    (finalState o).completedAt = true ∧
    (finalState o).sourceContractStatus = "failed" ∧
    (finalState o).targetContractStatus = "failed" ∧
    (∀ s ∈ runFullTrace o initialDbState, readClauseComparisons s = []) := by
  cases hs : o.extractSource with
  | error e =>
    have hrows : ∀ s ∈ runFullTrace o initialDbState, readClauseComparisons s = [] := by
      simp only [runFullTrace, hs]
      intro s hmem
      simp only [List.mem_cons, List.not_mem_nil, or_false] at hmem
      rcases hmem with rfl | rfl | rfl | rfl | rfl <;>
        simp [readClauseComparisons, initialDbState]
    refine ⟨?_, ⟨e, ?_⟩, ?_, ?_, ?_, hrows⟩ <;>
      simp [finalState, runFullTrace, hs, List.getLastD]
  | ok srcExtracted =>
    have ht : ∃ e, o.extractTarget = .error e := by
      rcases h with ⟨e, he⟩ | he
      · rw [hs] at he
        exact absurd he (by simp)
      · exact he
    obtain ⟨e, he⟩ := ht
    have hrows : ∀ s ∈ runFullTrace o initialDbState, readClauseComparisons s = [] := by
      simp only [runFullTrace, hs, he]
      intro s hmem
      simp only [List.mem_cons, List.not_mem_nil, or_false] at hmem
      rcases hmem with rfl | rfl | rfl | rfl | rfl | rfl <;>
        simp [readClauseComparisons, initialDbState]
    refine ⟨?_, ⟨e, ?_⟩, ?_, ?_, ?_, hrows⟩ <;>
      simp [finalState, runFullTrace, hs, he, List.getLastD]

/-- Witness for C7 at a failing source extraction. -/
theorem C7_witness :
    (finalState extractFailOracle).comparisonStatus = "failed" ∧
    (finalState extractFailOracle).sourceContractStatus = "failed" ∧
    (finalState extractFailOracle).targetContractStatus = "failed" :=
  ⟨(C7_extraction_failure_fatal extractFailOracle (Or.inl ⟨"boom", rfl⟩)).1,
   (C7_extraction_failure_fatal extractFailOracle (Or.inl ⟨"boom", rfl⟩)).2.2.2.1,
   (C7_extraction_failure_fatal extractFailOracle (Or.inl ⟨"boom", rfl⟩)).2.2.2.2.1⟩

/-- Risk analysis only fills in risk fields: the identifying fields of a
clause-comparison record are unchanged. -/
theorem applyRisk_preserves (o : Oracle) (d0 : ClauseCmpData) :
    (applyRisk o d0).needsRiskAnalysis = d0.needsRiskAnalysis ∧
    (applyRisk o d0).sourceContent = d0.sourceContent ∧
    (applyRisk o d0).targetContent = d0.targetContent ∧
    (applyRisk o d0).clauseType = d0.clauseType ∧
    (applyRisk o d0).status = d0.status := by
  unfold applyRisk
  by_cases h : d0.needsRiskAnalysis = true
  · rw [if_pos h]
    cases hr : o.risk d0.sourceContent d0.targetContent d0.clauseType
    · exact ⟨rfl, rfl, rfl, rfl, rfl⟩
    · exact ⟨rfl, rfl, rfl, rfl, rfl⟩
  · rw [if_neg h]
    exact ⟨rfl, rfl, rfl, rfl, rfl⟩

/-- Claim C8: a failed per-clause risk-analysis call is non-fatal: the run
still reaches completed, and the affected pair receives the fixed default
score -- 25 when its status is minor_change, 60 otherwise (significant
change) -- together with the generic diff summary. -/
theorem C8_risk_failure_defaults (o : Oracle) (sourceClauses targetClauses : List ClauseRec)
    (d : ClauseCmpData) (hmem : d ∈ analyzedClauseData o sourceClauses targetClauses)
    (hneeds : d.needsRiskAnalysis = true)
    (hfail : o.risk d.sourceContent d.targetContent d.clauseType = none) :
    d.riskScore = some (if d.status = "minor_change" then 25 else 60) ∧
    d.diffSummary = some ("Changes detected in " ++ d.clauseType ++ " clause.") ∧
    (comparisonFinal o sourceClauses targetClauses).comparisonStatus = "completed" := by
  have hfin : (comparisonFinal o sourceClauses targetClauses).comparisonStatus
      = "completed" := by
    simp [comparisonFinal, runComparisonTrace, List.getLastD]
  obtain ⟨d0, hd0, rfl⟩ := List.mem_map.mp hmem
  have hpres := applyRisk_preserves o d0
  rw [hpres.1] at hneeds
  rw [hpres.2.1, hpres.2.2.1, hpres.2.2.2.1] at hfail
  have hscore : (applyRisk o d0).riskScore =
      some (if d0.status = "minor_change" then 25 else 60) := by
    unfold applyRisk
    rw [if_pos hneeds, hfail]
  have hsum : (applyRisk o d0).diffSummary =
      some ("Changes detected in " ++ d0.clauseType ++ " clause.") := by
    unfold applyRisk
    rw [if_pos hneeds, hfail]
  refine ⟨?_, ?_, hfin⟩
  · rw [hpres.2.2.2.2, hscore]
  · rw [hpres.2.2.2.1, hsum]

/-- Witness for C8: the one changed pair of ([soloSource], [soloTarget])
under fullChangeOracle, whose risk call errors, gets riskScore 60. -/
theorem C8_witness :
    dC8 ∈ analyzedClauseData fullChangeOracle [soloSource] [soloTarget] ∧
    dC8.riskScore = some 60 ∧
    (comparisonFinal fullChangeOracle [soloSource] [soloTarget]).comparisonStatus
      = "completed" := by
  have hx : normalizeTextForComparison "x" = "x" := by decide
  have hy : normalizeTextForComparison "y" = "y" := by decide
  have hne : ("x" : String) ≠ "y" := by decide
  have hst : diffStatus [⟨"x", false, true⟩, ⟨"y", true, false⟩] = "significant_change" := by
    have h1 : ("x" : String).length = 1 := by decide
    have h2 : ("y" : String).length = 1 := by decide
    simp [diffStatus, changeFrac, changedChars, totalChars, h1, h2]
    norm_num
  have hst2 : diffStatus [⟨"x", false, true⟩, ⟨"y", true, false⟩] ≠ "minor_change" := by
    rw [hst]
    decide
  have hmem : dC8 ∈ analyzedClauseData fullChangeOracle [soloSource] [soloTarget] := by
    have hrow : analyzedClauseData fullChangeOracle [soloSource] [soloTarget] = [dC8] := by
      simp [analyzedClauseData, buildClauseData, fullChangeOracle, baseOracle, typeKeys,
        dedupKeepFirst, typeLookup, typeRow, pairRow, soloSource, soloTarget, hx, hy, hne,
        hst, hst2, applyRisk, dC8]
    rw [hrow]
    simp
  have h := C8_risk_failure_defaults fullChangeOracle [soloSource] [soloTarget] dC8
    hmem rfl rfl
  refine ⟨hmem, ?_, h.2.2⟩
  rw [h.1, if_neg (by decide : ¬ dC8.status = "minor_change")]

/-- Claim C9: failure of the summary-generation or semantic-tagging call is
non-fatal: the comparison still ends completed, with a null summary and/or
null semantic tags. -/
theorem C9_summary_tags_failure_nonfatal (o : Oracle)
    (sourceClauses targetClauses : List ClauseRec) :
    (comparisonFinal o sourceClauses targetClauses).comparisonStatus = "completed" ∧
    (o.summaryGen = none →
      (comparisonFinal o sourceClauses targetClauses).summary = none) ∧
    (o.tagsGen = none →
      (comparisonFinal o sourceClauses targetClauses).semanticTags = none) := by
  refine ⟨?_, ?_, ?_⟩
  · simp [comparisonFinal, runComparisonTrace, List.getLastD]
  · intro hnone
    simp [comparisonFinal, runComparisonTrace, List.getLastD, orNullStr, hnone]
  · intro hnone
    simp [comparisonFinal, runComparisonTrace, List.getLastD, hnone]

/-- Witness for C9 at a run where both calls fail. -/
theorem C9_witness :
    (comparisonFinal baseOracle [] []).comparisonStatus = "completed" ∧
    (comparisonFinal baseOracle [] []).summary = none ∧
    (comparisonFinal baseOracle [] []).semanticTags = none := by
  have h := C9_summary_tags_failure_nonfatal baseOracle [] []
  exact ⟨h.1, h.2.1 rfl, h.2.2 rfl⟩


/-! ### Claim C3: normalizer idempotence analysis.  Identity lemmas: each
rule is the identity on inputs in its normal form. -/

theorem isHWS_ne_nl (c : Char) (h : isHWS c = true) : c ≠ '\n' := by
  unfold isHWS at h
  rcases Bool.or_eq_true_iff.mp h with h | h <;>
    · rw [decide_eq_true_eq] at h
      subst h
      decide

theorem isHWS_ne_cr (c : Char) (h : isHWS c = true) : c ≠ '\r' := by
  unfold isHWS at h
  rcases Bool.or_eq_true_iff.mp h with h | h <;>
    · rw [decide_eq_true_eq] at h
      subst h
      decide

theorem convertEOLAux_id (l : List Char) (h : noCR l = true) :
    convertEOLAux false l = l := by
  induction l with
  | nil => rfl
  | cons c rest ih =>
    simp only [noCR, List.all_cons, Bool.and_eq_true, decide_eq_true_eq] at h
    unfold convertEOLAux
    rw [if_neg h.1]
    by_cases hc : c = '\n'
    · subst hc
      rw [if_pos rfl]
      simpa using ih (by simpa [noCR] using h.2)
    · rw [if_neg hc, ih (by simpa [noCR] using h.2)]

theorem collapseHWSAux_id (l : List Char) : ∀ b, hwsOK b l = true →
    collapseHWSAux b l = l := by
  induction l with
  | nil => intro b _; rfl
  | cons c rest ih =>
    intro b h
    unfold hwsOK at h
    unfold collapseHWSAux
    by_cases hc : isHWS c = true
    · rw [if_pos hc] at h
      rw [if_pos hc]
      simp only [Bool.and_eq_true, decide_eq_true_eq, Bool.not_eq_true'] at h
      rw [h.1.2]
      simp only [if_false, Bool.false_eq_true]
      rw [h.1.1, ih true h.2]
      rfl
    · rw [if_neg hc] at h
      rw [if_neg hc, ih false h]

theorem collapseNLAux_id (l : List Char) : ∀ k, nlRunsLE2 k l = true →
    collapseNLAux k l = l := by
  induction l with
  | nil => intro k _; rfl
  | cons c rest ih =>
    intro k h
    unfold nlRunsLE2 at h
    unfold collapseNLAux
    by_cases hc : c = '\n'
    · rw [if_pos hc] at h
      rw [if_pos hc]
      simp only [Bool.and_eq_true, decide_eq_true_eq] at h
      rw [if_pos (by omega : k < 2), ih (k + 1) h.2, hc]
      rfl
    · rw [if_neg hc] at h
      rw [if_neg hc, ih 0 h]

theorem trimLinesAux_id (l : List Char) : ∀ (atStart : Bool) (pending : List Char),
    (∀ x ∈ pending, isHWS x = true) →
    (atStart = true → pending = []) →
    linesOK atStart l = true →
    (pending ≠ [] → ∃ d rest, l = d :: rest ∧ d ≠ '\n') →
    trimLinesAux atStart pending l = pending ++ l := by
  induction l with
  | nil =>
    intro atStart pending _ _ _ hp
    have : pending = [] := by
      by_contra hne
      obtain ⟨d, rest, hcons, _⟩ := hp hne
      exact absurd hcons (by simp)
    rw [this]
    rfl
  | cons c rest ih =>
    intro atStart pending hpw hps h hp
    unfold linesOK at h
    unfold trimLinesAux
    by_cases hc : c = '\n'
    · rw [if_pos hc] at h ⊢
      have hpe : pending = [] := by
        by_contra hne
        obtain ⟨d, r, hcons, hd⟩ := hp hne
        injection hcons with h1 _
        exact hd (h1 ▸ hc)
      rw [hpe, ih true [] (by simp) (by simp) h (by simp)]
      rw [hc]
      rfl
    · rw [if_neg hc] at h ⊢
      by_cases hh : isHWS c = true
      · rw [if_pos hh] at h ⊢
        simp only [Bool.and_eq_true, Bool.not_eq_true'] at h
        obtain ⟨⟨hstart, hmatch⟩, hrest⟩ := h
        rw [hstart]
        simp only [if_false, Bool.false_eq_true]
        have hrnext : ∃ d r, rest = d :: r ∧ d ≠ '\n' := by
          cases rest with
          | nil => exact absurd hmatch (by simp)
          | cons d r =>
            refine ⟨d, r, rfl, ?_⟩
            simpa using hmatch
        rw [ih false (pending ++ [c]) (by
            intro x hx
            rcases List.mem_append.mp hx with hx | hx
            · exact hpw x hx
            · rw [List.mem_singleton.mp hx]; exact hh)
          (by simp) hrest (fun _ => hrnext)]
        simp
      · rw [if_neg hh] at h ⊢
        rw [ih false [] (by simp) (by simp) h (by simp)]
        simp

theorem trimLeft_eq_self (l : List Char)
    (h : ∀ c, l.head? = some c → isWS c = false) : trimLeft l = l := by
  cases l with
  | nil => rfl
  | cons c rest =>
    unfold trimLeft
    rw [List.dropWhile_cons_of_neg]
    simp [h c rfl]

theorem trimRight_idem (l : List Char) : trimRight (trimRight l) = trimRight l := by
  induction l with
  | nil => rfl
  | cons c rest ih =>
    by_cases h : trimRight rest = [] ∧ isWS c = true
    · simp only [trimRight, h.1, h.2]
      rfl
    · have hco : trimRight (c :: rest) = c :: trimRight rest := by
        simp only [trimRight]
        rw [if_neg (by
          intro hx
          simp only [Bool.and_eq_true, decide_eq_true_eq] at hx
          exact h ⟨hx.1, hx.2⟩)]
      rw [hco]
      by_cases hr : trimRight rest = []
      · simp only [trimRight, ih, hr]
        rw [if_neg (by
          intro hx
          simp only [Bool.and_eq_true, decide_eq_true_eq] at hx
          exact h ⟨hr, hx.2⟩)]
      · simp only [trimRight, ih]
        rw [if_neg (by
          intro hx
          simp only [Bool.and_eq_true, decide_eq_true_eq] at hx
          exact hr hx.1)]

theorem trimRight_head (c : Char) (t : List Char) :
    trimRight (c :: t) = [] ∨ ∃ t', trimRight (c :: t) = c :: t' := by
  simp only [trimRight]
  split_ifs with h
  · exact Or.inl rfl
  · exact Or.inr ⟨trimRight t, rfl⟩


/-! ### Claim C3 continued: each pipeline stage establishes or preserves
the normal-form predicates. -/

theorem convertEOLAux_noCR (l : List Char) : ∀ b, noCR (convertEOLAux b l) = true := by
  induction l with
  | nil => intro b; rfl
  | cons c rest ih =>
    intro b
    unfold convertEOLAux
    by_cases h1 : c = '\r'
    · rw [if_pos h1]
      simpa [noCR] using ih true
    · rw [if_neg h1]
      by_cases h2 : c = '\n'
      · rw [if_pos h2]
        cases b <;> simpa [noCR] using ih false
      · rw [if_neg h2]
        simpa [noCR, h1] using ih false

theorem collapseHWSAux_noCR (l : List Char) : ∀ b, noCR l = true →
    noCR (collapseHWSAux b l) = true := by
  induction l with
  | nil => intro b _; rfl
  | cons c rest ih =>
    intro b h
    simp only [noCR, List.all_cons, Bool.and_eq_true, decide_eq_true_eq] at h
    unfold collapseHWSAux
    by_cases hc : isHWS c = true
    · rw [if_pos hc]
      cases b <;> simpa [noCR] using ih true (by simpa [noCR] using h.2)
    · rw [if_neg hc]
      simpa [noCR, h.1] using ih false (by simpa [noCR] using h.2)

theorem collapseNLAux_noCR (l : List Char) : ∀ k, noCR l = true →
    noCR (collapseNLAux k l) = true := by
  induction l with
  | nil => intro k _; rfl
  | cons c rest ih =>
    intro k h
    simp only [noCR, List.all_cons, Bool.and_eq_true, decide_eq_true_eq] at h
    unfold collapseNLAux
    by_cases hc : c = '\n'
    · rw [if_pos hc]
      by_cases hk : k < 2 <;>
        simp [hk, noCR] <;>
        simpa [noCR] using ih (k + 1) (by simpa [noCR] using h.2)
    · rw [if_neg hc]
      simpa [noCR, h.1] using ih 0 (by simpa [noCR] using h.2)

theorem trimLinesAux_noCR (l : List Char) : ∀ (atStart : Bool) (pending : List Char),
    noCR pending = true → noCR l = true →
    noCR (trimLinesAux atStart pending l) = true := by
  induction l with
  | nil => intro _ _ _ _; rfl
  | cons c rest ih =>
    intro atStart pending hpend h
    simp only [noCR, List.all_cons, Bool.and_eq_true, decide_eq_true_eq] at h
    unfold trimLinesAux
    by_cases hc : c = '\n'
    · rw [if_pos hc]
      simpa [noCR] using ih true [] rfl (by simpa [noCR] using h.2)
    · rw [if_neg hc]
      by_cases hh : isHWS c = true
      · rw [if_pos hh]
        cases atStart
        · simp only [if_false, Bool.false_eq_true]
          refine ih false (pending ++ [c]) ?_ (by simpa [noCR] using h.2)
          simp only [noCR, List.all_append, Bool.and_eq_true] at hpend ⊢
          exact ⟨hpend, by simp [h.1]⟩
        · simpa using ih true [] rfl (by simpa [noCR] using h.2)
      · rw [if_neg hh]
        simp only [noCR, List.all_append, List.all_cons, Bool.and_eq_true,
          decide_eq_true_eq]
        refine ⟨by simpa [noCR] using hpend, h.1, ?_⟩
        simpa [noCR] using ih false [] rfl (by simpa [noCR] using h.2)

theorem trimLeft_noCR (l : List Char) (h : noCR l = true) : noCR (trimLeft l) = true := by
  induction l with
  | nil => rfl
  | cons c rest ih =>
    simp only [noCR, List.all_cons, Bool.and_eq_true, decide_eq_true_eq] at h
    unfold trimLeft
    by_cases hw : isWS c = true
    · rw [List.dropWhile_cons_of_pos hw]
      exact ih (by simpa [noCR] using h.2)
    · rw [List.dropWhile_cons_of_neg (by simp [hw])]
      simpa [noCR, h.1] using h.2

theorem trimRight_noCR (l : List Char) (h : noCR l = true) :
    noCR (trimRight l) = true := by
  induction l with
  | nil => rfl
  | cons c rest ih =>
    simp only [noCR, List.all_cons, Bool.and_eq_true, decide_eq_true_eq] at h
    simp only [trimRight]
    split_ifs with hif
    · rfl
    · simp only [noCR, List.all_cons, Bool.and_eq_true, decide_eq_true_eq]
      exact ⟨h.1, by simpa [noCR] using ih (by simpa [noCR] using h.2)⟩


/-! ### Claim C3 continued: establishing and preserving the
single-space normal form. -/

theorem collapseHWSAux_hwsOK (l : List Char) : ∀ b, hwsOK b (collapseHWSAux b l) = true := by
  induction l with
  | nil => intro b; rfl
  | cons c rest ih =>
    intro b
    unfold collapseHWSAux
    by_cases hc : isHWS c = true
    · rw [if_pos hc]
      cases b
      · simp only [if_false, Bool.false_eq_true, List.singleton_append]
        unfold hwsOK
        rw [if_pos (by decide : isHWS ' ' = true)]
        simpa using ih true
      · simpa using ih true
    · rw [if_neg hc]
      unfold hwsOK
      rw [if_neg hc]
      exact ih false

theorem hwsOK_weaken (l : List Char) (h : hwsOK true l = true) : hwsOK false l = true := by
  cases l with
  | nil => rfl
  | cons c rest =>
    unfold hwsOK at h ⊢
    by_cases hc : isHWS c = true
    · rw [if_pos hc] at h
      simp at h
    · rw [if_neg hc] at h ⊢
      exact h

theorem hwsOK_tail (c : Char) (l : List Char) (b : Bool)
    (h : hwsOK b (c :: l) = true) : hwsOK false l = true := by
  unfold hwsOK at h
  by_cases hc : isHWS c = true
  · rw [if_pos hc] at h
    simp only [Bool.and_eq_true] at h
    exact hwsOK_weaken l h.2
  · rw [if_neg hc] at h
    exact h

theorem collapseNLAux_hwsOK (l : List Char) : ∀ (b : Bool) (k : Nat),
    hwsOK b l = true → (b = true → k = 0) →
    hwsOK b (collapseNLAux k l) = true := by
  induction l with
  | nil => intro b k _ _; rfl
  | cons c rest ih =>
    intro b k h hbk
    have hrest : hwsOK false rest = true := hwsOK_tail c rest b h
    unfold collapseNLAux
    by_cases hc : c = '\n'
    · rw [if_pos hc]
      by_cases hk : k < 2
      · rw [if_pos hk]
        simp only [List.singleton_append]
        unfold hwsOK
        rw [if_neg (by decide : ¬ isHWS '\n' = true)]
        cases b
        · exact ih false (k + 1) hrest (by simp)
        · exact ih false (k + 1) hrest (by simp)
      · rw [if_neg hk]
        have hb : b = false := by
          cases b
          · rfl
          · exact absurd (hbk rfl) (by omega)
        subst hb
        simpa using ih false (k + 1) hrest (by simp)
    · rw [if_neg hc]
      unfold hwsOK at h ⊢
      by_cases hh : isHWS c = true
      · rw [if_pos hh] at h ⊢
        simp only [Bool.and_eq_true] at h ⊢
        exact ⟨h.1, ih true 0 h.2 (fun _ => rfl)⟩
      · rw [if_neg hh] at h ⊢
        exact ih false 0 h (by simp)

theorem hwsOK_flush (p : List Char) (c : Char) (X : List Char)
    (hp : ∀ x ∈ p, x = ' ') (hlen : p.length ≤ 1) (hc : isHWS c = false)
    (hX : hwsOK false X = true) : hwsOK false (p ++ c :: X) = true := by
  cases p with
  | nil =>
    rw [List.nil_append]
    unfold hwsOK
    rw [if_neg (by simp [hc])]
    exact hX
  | cons x p' =>
    have hx : x = ' ' := hp x (by simp)
    have hp' : p' = [] := by
      cases p' with
      | nil => rfl
      | cons y t => simp at hlen
    subst hx hp'
    rw [List.singleton_append]
    unfold hwsOK
    rw [if_pos (by decide : isHWS ' ' = true)]
    simp only [Bool.and_eq_true]
    refine ⟨by decide, ?_⟩
    unfold hwsOK
    rw [if_neg (by simp [hc])]
    exact hX

theorem trimLinesAux_hwsOK (l : List Char) : ∀ (b atStart : Bool) (pending : List Char),
    hwsOK b l = true → (pending ≠ [] → b = true) → (∀ x ∈ pending, x = ' ') →
    pending.length ≤ 1 →
    hwsOK false (trimLinesAux atStart pending l) = true := by
  induction l with
  | nil => intro b atStart pending _ _ _ _; rfl
  | cons c rest ih =>
    intro b atStart pending h hpb hpw hlen
    have hrest : hwsOK false rest = true := hwsOK_tail c rest b h
    unfold trimLinesAux
    by_cases hc : c = '\n'
    · rw [if_pos hc]
      unfold hwsOK
      rw [if_neg (by decide : ¬ isHWS '\n' = true)]
      exact ih false true [] hrest (by simp) (by simp) (by simp)
    · rw [if_neg hc]
      by_cases hh : isHWS c = true
      · rw [if_pos hh]
        have hcsp : c = ' ' := by
          unfold hwsOK at h
          rw [if_pos hh] at h
          simp only [Bool.and_eq_true, decide_eq_true_eq] at h
          exact h.1.1
        have hbf : b = false := by
          unfold hwsOK at h
          rw [if_pos hh] at h
          simp only [Bool.and_eq_true, Bool.not_eq_true'] at h
          exact h.1.2
        have hpe : pending = [] := by
          by_contra hne
          rw [hpb hne] at hbf
          exact absurd hbf (by decide)
        have hrtrue : hwsOK true rest = true := by
          unfold hwsOK at h
          rw [if_pos hh] at h
          simp only [Bool.and_eq_true] at h
          exact h.2
        cases atStart
        · simp only [if_false, Bool.false_eq_true]
          refine ih true false (pending ++ [c]) hrtrue (fun _ => rfl) ?_ ?_
          · intro x hx
            rcases List.mem_append.mp hx with hx | hx
            · exact hpw x hx
            · rw [List.mem_singleton.mp hx, hcsp]
          · rw [hpe]
            simp
        · simp only [if_true]
          exact ih true true [] hrtrue (by simp) (by simp) (by simp)
      · rw [if_neg hh]
        refine hwsOK_flush pending c (trimLinesAux false [] rest) hpw hlen (by simp [hh]) ?_
        exact ih false false [] hrest (by simp) (by simp) (by simp)

theorem trimLeft_hwsOK (l : List Char) (h : hwsOK false l = true) :
    hwsOK false (trimLeft l) = true := by
  induction l with
  | nil => rfl
  | cons c rest ih =>
    unfold trimLeft
    by_cases hw : isWS c = true
    · rw [List.dropWhile_cons_of_pos hw]
      exact ih (hwsOK_tail c rest false h)
    · rw [List.dropWhile_cons_of_neg (by simp [hw])]
      exact h

theorem trimRight_hwsOK (l : List Char) : ∀ b, hwsOK b l = true →
    hwsOK b (trimRight l) = true := by
  induction l with
  | nil => intro b _; rfl
  | cons c rest ih =>
    intro b h
    simp only [trimRight]
    split_ifs with hif
    · rfl
    · unfold hwsOK at h ⊢
      by_cases hh : isHWS c = true
      · rw [if_pos hh] at h ⊢
        simp only [Bool.and_eq_true] at h ⊢
        exact ⟨h.1, ih true h.2⟩
      · rw [if_neg hh] at h ⊢
        exact ih false h


/-! ### Claim C3 continued: establishing and preserving the
trimmed-lines normal form. -/

theorem linesOK_flush (p : List Char) (c : Char) (X : List Char)
    (hp : ∀ x ∈ p, isHWS x = true) (hc1 : c ≠ '\n') (hc2 : isHWS c = false)
    (hX : linesOK false X = true) :
    ∀ b, (p ≠ [] → b = false) → linesOK b (p ++ c :: X) = true := by
  induction p with
  | nil =>
    intro b _
    rw [List.nil_append]
    unfold linesOK
    rw [if_neg hc1, if_neg (by simp [hc2])]
    exact hX
  | cons x p' ih =>
    intro b hb
    have hbf : b = false := hb (by simp)
    subst hbf
    have hx : isHWS x = true := hp x (by simp)
    rw [List.cons_append]
    unfold linesOK
    rw [if_neg (isHWS_ne_nl x hx), if_pos hx]
    simp only [Bool.and_eq_true]
    refine ⟨⟨rfl, ?_⟩, ?_⟩
    · cases p' with
      | nil =>
        rw [List.nil_append]
        simp [hc1]
      | cons y t =>
        rw [List.cons_append]
        simp [isHWS_ne_nl y (hp y (by simp))]
    · exact ih (fun z hz => hp z (by simp [hz])) false (fun _ => rfl)

theorem trimLinesAux_linesOK (l : List Char) : ∀ (atStart : Bool) (pending : List Char),
    (∀ x ∈ pending, isHWS x = true) → (atStart = true → pending = []) →
    linesOK atStart (trimLinesAux atStart pending l) = true := by
  induction l with
  | nil => intro atStart pending _ _; rfl
  | cons c rest ih =>
    intro atStart pending hp hap
    unfold trimLinesAux
    by_cases hc : c = '\n'
    · rw [if_pos hc]
      unfold linesOK
      rw [if_pos rfl]
      exact ih true [] (by simp) (fun _ => rfl)
    · rw [if_neg hc]
      by_cases hh : isHWS c = true
      · rw [if_pos hh]
        cases atStart
        · simp only [if_false, Bool.false_eq_true]
          exact ih false (pending ++ [c]) (by
            intro x hx
            rcases List.mem_append.mp hx with hx | hx
            · exact hp x hx
            · rw [List.mem_singleton.mp hx]; exact hh) (by simp)
        · simp only [if_true]
          exact ih true [] (by simp) (fun _ => rfl)
      · rw [if_neg hh]
        refine linesOK_flush pending c _ hp hc (by simp [hh])
          (ih false [] (by simp) (by simp)) atStart ?_
        intro hne
        cases hs : atStart
        · rfl
        · exact absurd (hap hs) hne

theorem isWS_cases (c : Char) (h : isWS c = true) :
    isHWS c = true ∨ c = '\n' ∨ c = '\r' := by
  unfold isWS at h
  rcases Bool.or_eq_true_iff.mp h with h | h
  · rcases Bool.or_eq_true_iff.mp h with h | h
    · exact Or.inl h
    · exact Or.inr (Or.inl (by simpa using h))
  · exact Or.inr (Or.inr (by simpa using h))

theorem trimLeft_linesOK (l : List Char) (hcr : noCR l = true)
    (h : linesOK true l = true) : linesOK true (trimLeft l) = true := by
  induction l with
  | nil => rfl
  | cons c rest ih =>
    simp only [noCR, List.all_cons, Bool.and_eq_true, decide_eq_true_eq] at hcr
    unfold trimLeft
    by_cases hw : isWS c = true
    · rw [List.dropWhile_cons_of_pos hw]
      unfold linesOK at h
      rcases isWS_cases c hw with hh | hh | hh
      · rw [if_neg (isHWS_ne_nl c hh), if_pos hh] at h
        simp at h
      · rw [if_pos hh] at h
        exact ih (by simpa [noCR] using hcr.2) h
      · exact absurd hh hcr.1
    · rw [List.dropWhile_cons_of_neg (by simp [hw])]
      exact h

theorem trimRight_linesOK (l : List Char) : ∀ atStart, linesOK atStart l = true →
    linesOK atStart (trimRight l) = true := by
  induction l with
  | nil => intro _ _; rfl
  | cons c rest ih =>
    intro atStart h
    simp only [trimRight]
    split_ifs with hif
    · rfl
    · unfold linesOK at h ⊢
      by_cases hc : c = '\n'
      · rw [if_pos hc] at h ⊢
        exact ih true h
      · rw [if_neg hc] at h ⊢
        by_cases hh : isHWS c = true
        · rw [if_pos hh] at h ⊢
          simp only [Bool.and_eq_true] at h ⊢
          obtain ⟨⟨hstart, hmatch⟩, hrest⟩ := h
          refine ⟨⟨hstart, ?_⟩, ih false hrest⟩
          have hws' : isWS c = true := by
            unfold isWS
            simp [hh]
          have hrne : trimRight rest ≠ [] := by
            intro h0
            exact hif (by simp [h0, hws'])
          cases hrest0 : rest with
          | nil =>
            rw [hrest0] at hmatch
            simp at hmatch
          | cons d t =>
            have h2' := trimRight_head d t
            rw [← hrest0] at h2'
            rcases h2' with h1 | ⟨t', h2⟩
            · exact absurd h1 hrne
            · rw [← hrest0, h2]
              rw [hrest0] at hmatch
              simpa using hmatch
        · rw [if_neg hh] at h ⊢
          exact ih false h

theorem dropWhile_head_false (w : List Char) : ∀ d t,
    w.dropWhile isWS = d :: t → isWS d = false := by
  induction w with
  | nil =>
    intro d t h
    simp at h
  | cons c rest ih =>
    intro d t h
    by_cases hw : isWS c = true
    · rw [List.dropWhile_cons_of_pos hw] at h
      exact ih d t h
    · rw [List.dropWhile_cons_of_neg (by simp [hw])] at h
      injection h with h1 _
      rw [← h1]
      simp [hw]


/-! ### Claim C3: assembly. -/

/-- Every normalization rule fixes the output of normalizeChars, except
rule 3, which needs the no-triple-newline side condition. -/
theorem normalizeChars_fixpoint (l : List Char)
    (h3 : nlRunsLE2 0 (normalizeChars l) = true) :
    normalizeChars (normalizeChars l) = normalizeChars l := by
  have f1 : noCR (normalizeChars l) = true := by
    unfold normalizeChars convertEOL collapseHWS collapseNL trimLines
    exact trimRight_noCR _ (trimLeft_noCR _ (trimLinesAux_noCR _ true [] rfl
      (collapseNLAux_noCR _ 0 (collapseHWSAux_noCR _ false (convertEOLAux_noCR l false)))))
  have f2 : hwsOK false (normalizeChars l) = true := by
    unfold normalizeChars convertEOL collapseHWS collapseNL trimLines
    exact trimRight_hwsOK _ false (trimLeft_hwsOK _ (trimLinesAux_hwsOK _ false true []
      (collapseNLAux_hwsOK _ false 0 (collapseHWSAux_hwsOK _ false) (by simp))
      (by simp) (by simp) (by simp)))
  have fnl : noCR (trimLines (collapseNL (collapseHWS (convertEOL l)))) = true := by
    unfold convertEOL collapseHWS collapseNL trimLines
    exact trimLinesAux_noCR _ true [] rfl
      (collapseNLAux_noCR _ 0 (collapseHWSAux_noCR _ false (convertEOLAux_noCR l false)))
  have f4 : linesOK true (normalizeChars l) = true := by
    unfold normalizeChars
    refine trimRight_linesOK _ true (trimLeft_linesOK _ fnl ?_)
    unfold trimLines
    exact trimLinesAux_linesOK _ true [] (by simp) (by simp)
  have e1 : convertEOL (normalizeChars l) = normalizeChars l := convertEOLAux_id _ f1
  have e2 : collapseHWS (normalizeChars l) = normalizeChars l :=
    collapseHWSAux_id _ false f2
  have e3 : collapseNL (normalizeChars l) = normalizeChars l := collapseNLAux_id _ 0 h3
  have e4 : trimLines (normalizeChars l) = normalizeChars l := by
    unfold trimLines
    simpa using trimLinesAux_id (normalizeChars l) true [] (by simp) (by simp) f4 (by simp)
  have f6 : trimLeft (normalizeChars l) = normalizeChars l := by
    apply trimLeft_eq_self
    intro c hc
    unfold normalizeChars at hc
    cases hzz : trimLeft (trimLines (collapseNL (collapseHWS (convertEOL l)))) with
    | nil =>
      rw [hzz] at hc
      simp [trimRight] at hc
    | cons d t =>
      rw [hzz] at hc
      rcases trimRight_head d t with h1 | ⟨t', h2⟩
      · rw [h1] at hc
        simp at hc
      · rw [h2] at hc
        simp only [List.head?_cons, Option.some.injEq] at hc
        rw [← hc]
        exact dropWhile_head_false _ d t hzz
  have f5 : trimRight (normalizeChars l) = normalizeChars l := by
    unfold normalizeChars
    exact trimRight_idem _
  have hstep : normalizeChars (normalizeChars l) =
      trimRight (trimLeft (trimLines (collapseNL (collapseHWS
        (convertEOL (normalizeChars l)))))) := rfl
  rw [hstep, e1, e2, e3, e4, f6, f5]

/-- Claim C3, amended: the normalizer is idempotent on every input whose
normalized form has no run of three or more consecutive newlines.  With
the pass order of utils.ts lines 110-125 (newline-run collapsing before
per-line trimming) the function is not idempotent in general: trimming a
whitespace-only line can create a new run of three or more newlines, which
only a second application collapses (see the counterexample). -/
theorem C3_normalizer_conditionally_idempotent (x : String)
    (h : nlRunsLE2 0 (normalizeTextForComparison x).data = true) :
    normalizeTextForComparison (normalizeTextForComparison x) =
      normalizeTextForComparison x := by
  unfold normalizeTextForComparison
  exact congrArg (fun d => (⟨d⟩ : String)) (normalizeChars_fixpoint x.data h)

/-- Claim C3 as stated is false on the code: the input "a\n \n \nb"
normalizes to "a\n\n\nb" (utils.ts trims the whitespace-only lines after
collapsing newline runs), and a second application gives "a\n\nb". -/
theorem C3_counterexample :
    normalizeTextForComparison (normalizeTextForComparison "a\n \n \nb") ≠
      normalizeTextForComparison "a\n \n \nb" := by
  decide

/-- Witness for the amended C3 on an input whose normalized form has no
triple newline. -/
theorem C3_witness :
    nlRunsLE2 0 (normalizeTextForComparison "a\r\n\nb").data = true ∧
    normalizeTextForComparison (normalizeTextForComparison "a\r\n\nb") =
      normalizeTextForComparison "a\r\n\nb" :=
  ⟨by decide, C3_normalizer_conditionally_idempotent "a\r\n\nb" (by decide)⟩

end ContractComparator
